import Mathlib

/-!
Verification of the `to-wchar` conversion crate.

The crate provides two operations on top of the platform's native UTF-16
transcoding facility:

* `ToWchar::to_wchar` (src/lib.rs, lines 30-38): encode a string to UTF-16
  code units via `OsStrExt::encode_wide` and append a single `0` terminator.
* `FromWchar::from_wchar` (src/lib.rs, lines 47-56): decode a `&[u16]` via
  `OsString::from_wide` followed by `into_string`, which fails (returning the
  raw `OsString`) exactly when the code unit sequence is not valid UTF-16;
  on success every trailing `'\0'` is removed with `trim_end_matches('\0')`.

Texts are modelled as `List Char` (Lean's `Char` is a Unicode scalar value,
as is Rust's `char`); wide buffers as `List Nat` of 16-bit code units.
The platform transcoding primitives are external collaborators that the
design document directs to treat as the standard UTF-16 codec, and they are
modelled here by the standard algorithm.
-/

instance {ε α : Type} [DecidableEq ε] [DecidableEq α] : DecidableEq (Except ε α) := fun x y =>
  match x, y with
  | Except.ok a, Except.ok b =>
    if h : a = b then Decidable.isTrue (by rw [h])
    else Decidable.isFalse (fun hh => h (Except.ok.inj hh))
  | Except.error a, Except.error b =>
    if h : a = b then Decidable.isTrue (by rw [h])
    else Decidable.isFalse (fun hh => h (Except.error.inj hh))
  | Except.ok _, Except.error _ => Decidable.isFalse (fun hh => Except.noConfusion hh)
  | Except.error _, Except.ok _ => Decidable.isFalse (fun hh => Except.noConfusion hh)

/-- The null scalar value U+0000, Rust's `'\0'`. -/
def nulChar : Char := Char.ofNat 0

/-- UTF-16 encoding of one Unicode scalar value: one code unit below
`0x10000`, otherwise the standard surrogate-pair construction (subtract
`0x10000`, high 10 bits plus `0xD800`, low 10 bits plus `0xDC00`).
Models the per-scalar step of the platform primitive `OsStrExt::encode_wide`. -/
def encodeWideChar (c : Char) : List Nat :=
  let n := c.toNat
  if n < 0x10000 then [n]
  else [(n - 0x10000) / 0x400 + 0xD800, (n - 0x10000) % 0x400 + 0xDC00]

/-- UTF-16 transcoding of a whole text: the concatenation of each scalar
value's code units, in input order. Models `OsStr::new(&self).encode_wide()`. -/
def encodeWide : List Char → List Nat
  | [] => []
  | c :: s => encodeWideChar c ++ encodeWide s

/-- `ToWchar::to_wchar`:
`OsStr::new(&self).encode_wide().chain(once(0)).collect()`. -/
def to_wchar (s : List Char) : List Nat := encodeWide s ++ [0]

/-- UTF-16 decoding of a code unit sequence. Returns `none` exactly when the
sequence is not valid UTF-16 (an unpaired or out-of-order surrogate). Models
`OsString::from_wide` composed with `OsString::into_string`, whose combined
effect on a `&[u16]` is to decode it when it is valid UTF-16 and fail
otherwise. -/
def decodeUtf16 : List Nat → Option (List Char)
  | [] => some []
  | u :: rest =>
    if u < 0xD800 ∨ 0xDFFF < u then
      (decodeUtf16 rest).map (fun cs => Char.ofNat u :: cs)
    else if u < 0xDC00 then
      match rest with
      | [] => none
      | v :: rest2 =>
        if 0xDC00 ≤ v ∧ v ≤ 0xDFFF then
          (decodeUtf16 rest2).map
            (fun cs => Char.ofNat (0x10000 + (u - 0xD800) * 0x400 + (v - 0xDC00)) :: cs)
        else none
    else none

/-- `str::trim_end_matches('\0')`: remove every trailing occurrence of the
null character, leaving everything else untouched. -/
def trimEndNul (s : List Char) : List Char :=
  (s.reverse.dropWhile (fun c => c == nulChar)).reverse

/-- `FromWchar::from_wchar`: decode, fail with the raw undecodable data when
the input is not valid UTF-16, and strip all trailing nulls on success. -/
def from_wchar (w : List Nat) : Except (List Nat) (List Char) :=
  match decodeUtf16 w with
  | some s => Except.ok (trimEndNul s)
  | none => Except.error w

/-- A code unit sequence is valid UTF-16 when it is the UTF-16 transcoding of
some sequence of Unicode scalar values. -/
def ValidUtf16 (B : List Nat) : Prop := ∃ cs : List Char, encodeWide cs = B

/-- Spec-level transcoding of one scalar value, written from the design
document's words: "scalar values above the 16-bit range are split into a
surrogate pair per the standard algorithm: subtract 0x10000, take high 10
bits + 0xD800 as the lead unit, low 10 bits + 0xDC00 as the trail unit". -/
def utf16SpecChar (c : Char) : List Nat :=
  let n := c.toNat
  if n < 0x10000 then [n]
  else
    let m := n - 0x10000
    [0xD800 + m / 0x400, 0xDC00 + m % 0x400]

/-- Spec-level UTF-16 transcoding of a text. -/
def utf16Spec (s : List Char) : List Nat := (s.map utf16SpecChar).flatten

/-- `utf16_length` of a text: the number of UTF-16 code units of its
transcoding, one per scalar value below `0x10000` and two otherwise. -/
def utf16_length (s : List Char) : Nat :=
  (s.map (fun c => if c.toNat < 0x10000 then 1 else 2)).sum

theorem char_toNat_valid (c : Char) :
    c.toNat < 0xD800 ∨ (0xDFFF < c.toNat ∧ c.toNat < 0x110000) := c.valid

theorem toNat_ofNat_of_valid {n : Nat} (h : n.isValidChar) : (Char.ofNat n).toNat = n := by
  unfold Char.ofNat
  rw [dif_pos h]
  rfl

theorem decodeUtf16_nil : decodeUtf16 [] = some [] := rfl

theorem decodeUtf16_cons_lo (u : Nat) (rest : List Nat) (hg : u < 0xD800 ∨ 0xDFFF < u) :
    decodeUtf16 (u :: rest) = (decodeUtf16 rest).map (fun cs => Char.ofNat u :: cs) := by
  cases rest with
  | nil =>
    show (if u < 0xD800 ∨ 0xDFFF < u then
        (decodeUtf16 []).map (fun cs => Char.ofNat u :: cs)
      else if u < 0xDC00 then none else none) = _
    rw [if_pos hg]
  | cons v rest2 =>
    show (if u < 0xD800 ∨ 0xDFFF < u then
        (decodeUtf16 (v :: rest2)).map (fun cs => Char.ofNat u :: cs)
      else if u < 0xDC00 then
        if 0xDC00 ≤ v ∧ v ≤ 0xDFFF then
          (decodeUtf16 rest2).map
            (fun cs => Char.ofNat (0x10000 + (u - 0xD800) * 0x400 + (v - 0xDC00)) :: cs)
        else none
      else none) = _
    rw [if_pos hg]

theorem decodeUtf16_cons_hi (u v : Nat) (rest2 : List Nat)
    (hg : ¬(u < 0xD800 ∨ 0xDFFF < u)) (hu : u < 0xDC00) (hv : 0xDC00 ≤ v ∧ v ≤ 0xDFFF) :
    decodeUtf16 (u :: v :: rest2) = (decodeUtf16 rest2).map
      (fun cs => Char.ofNat (0x10000 + (u - 0xD800) * 0x400 + (v - 0xDC00)) :: cs) := by
  show (if u < 0xD800 ∨ 0xDFFF < u then
      (decodeUtf16 (v :: rest2)).map (fun cs => Char.ofNat u :: cs)
    else if u < 0xDC00 then
      if 0xDC00 ≤ v ∧ v ≤ 0xDFFF then
        (decodeUtf16 rest2).map
          (fun cs => Char.ofNat (0x10000 + (u - 0xD800) * 0x400 + (v - 0xDC00)) :: cs)
      else none
    else none) = _
  rw [if_neg hg, if_pos hu, if_pos hv]

theorem decodeUtf16_encodeWide_append (s : List Char) (rest : List Nat) :
    decodeUtf16 (encodeWide s ++ rest) = (decodeUtf16 rest).map (fun t => s ++ t) := by
  induction s with
  | nil =>
    cases h : decodeUtf16 rest <;> simp [encodeWide, h]
  | cons c s ih =>
    have hv := char_toNat_valid c
    by_cases hsmall : c.toNat < 0x10000
    · have hg : c.toNat < 0xD800 ∨ 0xDFFF < c.toNat := by omega
      simp only [encodeWide, encodeWideChar, if_pos hsmall, List.cons_append,
        List.nil_append, List.append_assoc]
      rw [decodeUtf16_cons_lo _ _ hg, ih, Char.ofNat_toNat]
      cases h : decodeUtf16 rest <;> simp
    · have hbig : 0xDFFF < c.toNat ∧ c.toNat < 0x110000 := by omega
      have hq : (c.toNat - 0x10000) / 0x400 < 0x400 := by omega
      have hr : (c.toNat - 0x10000) % 0x400 < 0x400 := by omega
      simp only [encodeWide, encodeWideChar, if_neg hsmall, List.cons_append,
        List.nil_append, List.append_assoc]
      rw [decodeUtf16_cons_hi _ _ _ (by omega) (by omega) (by omega)]
      have harg : 0x10000 + ((c.toNat - 0x10000) / 0x400 + 0xD800 - 0xD800) * 0x400 +
          ((c.toNat - 0x10000) % 0x400 + 0xDC00 - 0xDC00) = c.toNat := by omega
      rw [harg, Char.ofNat_toNat, ih]
      cases h : decodeUtf16 rest <;> simp

theorem trimEndNul_append_replicate (s : List Char) (k : Nat) :
    trimEndNul (s ++ List.replicate k nulChar) = trimEndNul s := by
  have h : ∀ a ∈ List.replicate k nulChar, (a == nulChar) = true := by
    intro a ha
    rw [List.eq_of_mem_replicate ha]
    simp
  unfold trimEndNul
  rw [List.reverse_append, List.reverse_replicate, List.dropWhile_append_of_pos h]

theorem trimEndNul_eq_self {s : List Char} (h : s.getLast? ≠ some nulChar) :
    trimEndNul s = s := by
  unfold trimEndNul
  cases hr : s.reverse with
  | nil =>
    have hs : s = [] := by
      have h2 := congrArg List.reverse hr
      simpa using h2
    subst hs; rfl
  | cons a t =>
    have hs : s = (a :: t).reverse := by
      have h2 := congrArg List.reverse hr
      simpa using h2
    have hlast : s.getLast? = some a := by
      rw [List.getLast?_eq_head?_reverse, hr]; rfl
    have ha : ¬((a == nulChar) = true) := by
      simp only [beq_iff_eq]
      intro hEq; rw [hEq] at hlast; exact h hlast
    rw [List.dropWhile_cons, if_neg ha]
    exact hs.symm

theorem head?_dropWhile_ne {α : Type} (p : α → Bool) (l : List α) (a : α)
    (h : (l.dropWhile p).head? = some a) : p a = false := by
  induction l with
  | nil => simp [List.dropWhile] at h
  | cons x xs ih =>
    rw [List.dropWhile_cons] at h
    cases hx : p x with
    | true =>
      rw [hx] at h
      simp only [if_pos] at h
      exact ih h
    | false =>
      rw [hx] at h
      simp only [Bool.false_eq_true, if_false, List.head?_cons, Option.some.injEq] at h
      rw [← h]
      exact hx

theorem trimEndNul_getLast (s : List Char) : (trimEndNul s).getLast? ≠ some nulChar := by
  unfold trimEndNul
  rw [List.getLast?_eq_head?_reverse, List.reverse_reverse]
  intro hEq
  have h := head?_dropWhile_ne (fun c => c == nulChar) s.reverse nulChar hEq
  simp at h

theorem eq_trimEndNul_append (s : List Char) :
    ∃ k, s = trimEndNul s ++ List.replicate k nulChar := by
  refine ⟨(s.reverse.takeWhile (fun c => c == nulChar)).length, ?_⟩
  have htw : ∀ a ∈ s.reverse.takeWhile (fun c => c == nulChar), a = nulChar := by
    intro a ha
    have h2 := List.mem_takeWhile_imp ha
    simpa using h2
  have hrep : s.reverse.takeWhile (fun c => c == nulChar) =
      List.replicate (s.reverse.takeWhile (fun c => c == nulChar)).length nulChar :=
    List.eq_replicate_of_mem htw
  conv_lhs => rw [← List.reverse_reverse s,
    ← List.takeWhile_append_dropWhile (fun c => c == nulChar) s.reverse,
    List.reverse_append, hrep, List.reverse_replicate]
  rfl

theorem decodeUtf16_singleton_none (u : Nat) (hg : ¬(u < 0xD800 ∨ 0xDFFF < u)) :
    decodeUtf16 [u] = none := by
  show (if u < 0xD800 ∨ 0xDFFF < u then
      (decodeUtf16 []).map (fun cs => Char.ofNat u :: cs)
    else if u < 0xDC00 then none else none) = none
  rw [if_neg hg]
  by_cases h2 : u < 0xDC00
  · rw [if_pos h2]
  · rw [if_neg h2]

theorem decodeUtf16_cons_hi_none (u v : Nat) (rest2 : List Nat)
    (hg : ¬(u < 0xD800 ∨ 0xDFFF < u))
    (hbad : ¬(u < 0xDC00) ∨ ¬(0xDC00 ≤ v ∧ v ≤ 0xDFFF)) :
    decodeUtf16 (u :: v :: rest2) = none := by
  show (if u < 0xD800 ∨ 0xDFFF < u then
      (decodeUtf16 (v :: rest2)).map (fun cs => Char.ofNat u :: cs)
    else if u < 0xDC00 then
      if 0xDC00 ≤ v ∧ v ≤ 0xDFFF then
        (decodeUtf16 rest2).map
          (fun cs => Char.ofNat (0x10000 + (u - 0xD800) * 0x400 + (v - 0xDC00)) :: cs)
      else none
    else none) = none
  rw [if_neg hg]
  rcases hbad with h | h
  · rw [if_neg h]
  · by_cases h2 : u < 0xDC00
    · rw [if_pos h2, if_neg h]
    · rw [if_neg h2]

theorem encodeWide_of_decode : ∀ (B : List Nat), (∀ u ∈ B, u < 0x10000) →
    ∀ cs, decodeUtf16 B = some cs → encodeWide cs = B
  | [], _, cs, h => by
    rw [decodeUtf16_nil, Option.some.injEq] at h
    rw [← h]
    rfl
  | [u], hu, cs, h => by
    have hu0 : u < 0x10000 := hu u (List.mem_cons_self u [])
    by_cases hg : u < 0xD800 ∨ 0xDFFF < u
    · rw [decodeUtf16_cons_lo u [] hg, decodeUtf16_nil] at h
      simp only [Option.map_some', Option.some.injEq] at h
      rw [← h]
      have hvalid : Nat.isValidChar u := by
        show u < 0xd800 ∨ (0xdfff < u ∧ u < 0x110000)
        omega
      simp only [encodeWide, encodeWideChar, toNat_ofNat_of_valid hvalid, if_pos hu0,
        List.append_nil]
    · rw [decodeUtf16_singleton_none u hg] at h
      exact Option.noConfusion h
  | u :: v :: rest2, hu, cs, h => by
    have hu0 : u < 0x10000 := hu u (by simp)
    have hv0 : v < 0x10000 := hu v (by simp)
    by_cases hg : u < 0xD800 ∨ 0xDFFF < u
    · rw [decodeUtf16_cons_lo u (v :: rest2) hg] at h
      cases hd : decodeUtf16 (v :: rest2) with
      | none => rw [hd] at h; exact Option.noConfusion h
      | some cs2 =>
        rw [hd] at h
        simp only [Option.map_some', Option.some.injEq] at h
        have hrec := encodeWide_of_decode (v :: rest2)
          (fun w hw => hu w (List.mem_cons_of_mem u hw)) cs2 hd
        have hvalid : Nat.isValidChar u := by
          show u < 0xd800 ∨ (0xdfff < u ∧ u < 0x110000)
          omega
        rw [← h]
        simp only [encodeWide, encodeWideChar, toNat_ofNat_of_valid hvalid, if_pos hu0,
          List.cons_append, List.nil_append, hrec]
    · by_cases hu2 : u < 0xDC00
      · by_cases hv2 : 0xDC00 ≤ v ∧ v ≤ 0xDFFF
        · rw [decodeUtf16_cons_hi u v rest2 hg hu2 hv2] at h
          cases hd : decodeUtf16 rest2 with
          | none => rw [hd] at h; exact Option.noConfusion h
          | some cs2 =>
            rw [hd] at h
            simp only [Option.map_some', Option.some.injEq] at h
            have hrec := encodeWide_of_decode rest2
              (fun w hw => hu w (List.mem_cons_of_mem u (List.mem_cons_of_mem v hw))) cs2 hd
            have hn : Nat.isValidChar (0x10000 + (u - 0xD800) * 0x400 + (v - 0xDC00)) := by
              show _ < 0xd800 ∨ (0xdfff < _ ∧ _ < 0x110000)
              right
              constructor <;> omega
            have ht := toNat_ofNat_of_valid hn
            have e1 : (0x10000 + (u - 0xD800) * 0x400 + (v - 0xDC00) - 0x10000) / 0x400
                + 0xD800 = u := by omega
            have e2 : (0x10000 + (u - 0xD800) * 0x400 + (v - 0xDC00) - 0x10000) % 0x400
                + 0xDC00 = v := by omega
            rw [← h]
            simp only [encodeWide, encodeWideChar, ht, List.cons_append, List.nil_append]
            rw [if_neg (by omega), e1, e2, hrec]
            rfl
        · rw [decodeUtf16_cons_hi_none u v rest2 hg (Or.inr hv2)] at h
          exact Option.noConfusion h
      · rw [decodeUtf16_cons_hi_none u v rest2 hg (Or.inl hu2)] at h
        exact Option.noConfusion h

theorem decodeUtf16_to_wchar (T : List Char) :
    decodeUtf16 (to_wchar T) = some (T ++ [nulChar]) := by
  unfold to_wchar
  rw [decodeUtf16_encodeWide_append]
  rfl

theorem encodeWideChar_eq_spec (c : Char) : encodeWideChar c = utf16SpecChar c := by
  by_cases h : c.toNat < 0x10000
  · simp only [encodeWideChar, utf16SpecChar, if_pos h]
  · simp only [encodeWideChar, utf16SpecChar, if_neg h]
    rw [Nat.add_comm 0xD800, Nat.add_comm 0xDC00]

theorem encodeWide_eq_utf16Spec (T : List Char) : encodeWide T = utf16Spec T := by
  induction T with
  | nil => rfl
  | cons c s ih =>
    show encodeWideChar c ++ encodeWide s = ((c :: s).map utf16SpecChar).flatten
    rw [List.map_cons, List.flatten_cons, encodeWideChar_eq_spec, ih]
    rfl

theorem encodeWideChar_length (c : Char) :
    (encodeWideChar c).length = if c.toNat < 0x10000 then 1 else 2 := by
  by_cases h : c.toNat < 0x10000
  · simp only [encodeWideChar, if_pos h]
    rfl
  · simp only [encodeWideChar, if_neg h]
    rfl

theorem encodeWide_length (T : List Char) : (encodeWide T).length = utf16_length T := by
  induction T with
  | nil => rfl
  | cons c s ih =>
    show (encodeWideChar c ++ encodeWide s).length = _
    rw [List.length_append, encodeWideChar_length, ih]
    show _ = ((c :: s).map _).sum
    rw [List.map_cons, List.sum_cons]
    rfl

theorem zero_not_mem_encodeWide (T : List Char) (hT : ∀ c ∈ T, c ≠ nulChar) :
    (0 : Nat) ∉ encodeWide T := by
  induction T with
  | nil => simp [encodeWide]
  | cons c s ih =>
    show (0 : Nat) ∉ encodeWideChar c ++ encodeWide s
    rw [List.mem_append]
    rintro (hc | hs)
    · have hcnul := hT c (by simp)
      by_cases h : c.toNat < 0x10000
      · simp only [encodeWideChar, if_pos h, List.mem_singleton] at hc
        apply hcnul
        have h0 : c.toNat = 0 := by omega
        rw [← Char.ofNat_toNat c, h0]
        rfl
      · simp only [encodeWideChar, if_neg h, List.mem_cons, List.mem_singleton,
          List.not_mem_nil] at hc
        rcases hc with h1 | h1 | h1
        · omega
        · omega
        · exact h1
    · exact ih (fun x hx => hT x (by simp [hx])) hs

/-- Claim C1: for every text `T` that does not end in a null scalar value,
`from_wchar (to_wchar T)` returns `Ok T`: decoding any buffer produced by the
encoder succeeds and yields the original input text with no trailing
terminator. -/
theorem c1_round_trip (T : List Char) (h : T.getLast? ≠ some nulChar) :
    from_wchar (to_wchar T) = Except.ok T := by
  have hd := decodeUtf16_to_wchar T
  unfold from_wchar
  rw [hd]
  show Except.ok (trimEndNul (T ++ [nulChar])) = Except.ok T
  have h2 : trimEndNul (T ++ List.replicate 1 nulChar) = trimEndNul T :=
    trimEndNul_append_replicate T 1
  rw [show List.replicate 1 nulChar = [nulChar] from rfl] at h2
  rw [h2, trimEndNul_eq_self h]

/-- Claim C1 witness: the round trip at the concrete text `"HELLO"`. -/
theorem c1_round_trip_witness :
    from_wchar (to_wchar ['H', 'E', 'L', 'L', 'O']) = Except.ok ['H', 'E', 'L', 'L', 'O'] :=
  c1_round_trip ['H', 'E', 'L', 'L', 'O'] (by decide)

/-- Claim C2: for every text `T`, `to_wchar T` is the standard UTF-16
transcoding of `T` followed by exactly one zero code unit, its length is
`utf16_length T + 1`, and it is never empty. (The encoder is a total Lean
function, so it never fails.) -/
theorem c2_encoder_postcondition (T : List Char) :
    to_wchar T = utf16Spec T ++ [0] ∧
    (to_wchar T).length = utf16_length T + 1 ∧
    to_wchar T ≠ [] := by
  refine ⟨?_, ?_, ?_⟩
  · unfold to_wchar
    rw [encodeWide_eq_utf16Spec]
  · unfold to_wchar
    rw [List.length_append, encodeWide_length]
    rfl
  · unfold to_wchar
    simp

/-- Claim C3: for every code unit sequence that decodes as valid UTF-16,
`from_wchar` succeeds (whether or not the sequence ends in a terminator) and
removes every trailing occurrence of the null scalar value from the result:
the decoded text splits as the returned text followed by a block of nulls,
and the returned text has no trailing null. -/
theorem c3_strip_all_trailing_nulls (B : List Nat) (cs : List Char)
    (h : decodeUtf16 B = some cs) :
    ∃ t k, from_wchar B = Except.ok t ∧ cs = t ++ List.replicate k nulChar ∧
      t.getLast? ≠ some nulChar := by
  obtain ⟨k, hk⟩ := eq_trimEndNul_append cs
  refine ⟨trimEndNul cs, k, ?_, hk, trimEndNul_getLast cs⟩
  unfold from_wchar
  rw [h]

/-- Claim C3 witness: `from_wchar [0x0048, 0, 0] = Ok "H"` (both trailing
nulls removed, via the theorem) and `from_wchar [0x0048] = Ok "H"` (no
terminator needed). -/
theorem c3_strip_all_trailing_nulls_witness :
    from_wchar [0x0048] = Except.ok ['H'] ∧
    from_wchar [0x0048, 0, 0] = Except.ok ['H'] ∧
    (∃ t k, from_wchar [0x0048, 0, 0] = Except.ok t ∧
      ['H', nulChar, nulChar] = t ++ List.replicate k nulChar ∧
      t.getLast? ≠ some nulChar) :=
  ⟨by decide, by decide,
    c3_strip_all_trailing_nulls [0x0048, 0, 0] ['H', nulChar, nulChar] (by decide)⟩

/-- Claim C4: for every buffer of 16-bit code units, `from_wchar` fails if
and only if the buffer is not valid UTF-16, and the failure value is exactly
the raw input data (no structured error, no position information). -/
theorem c4_error_iff_invalid (B : List Nat) (hB : ∀ u ∈ B, u < 0x10000) :
    ((∃ e, from_wchar B = Except.error e) ↔ ¬ ValidUtf16 B) ∧
    ∀ e, from_wchar B = Except.error e → e = B := by
  constructor
  · constructor
    · rintro ⟨e, he⟩ ⟨cs, hcs⟩
      have hd : decodeUtf16 B = some cs := by
        have h2 := decodeUtf16_encodeWide_append cs []
        rw [List.append_nil, hcs, decodeUtf16_nil] at h2
        rw [h2]
        simp
      unfold from_wchar at he
      rw [hd] at he
      exact Except.noConfusion he
    · intro hnv
      cases hd : decodeUtf16 B with
      | some cs => exact absurd ⟨cs, encodeWide_of_decode B hB cs hd⟩ hnv
      | none =>
        refine ⟨B, ?_⟩
        unfold from_wchar
        rw [hd]
  · intro e he
    cases hd : decodeUtf16 B with
    | some cs =>
      unfold from_wchar at he
      rw [hd] at he
      exact Except.noConfusion he
    | none =>
      unfold from_wchar at he
      rw [hd] at he
      exact (Except.error.inj he).symm

/-- Claim C4 witness: instantiated at the lone high surrogate `[0xD800]`,
which is undecodable; `from_wchar [0xD800]` indeed fails carrying the raw
input. -/
theorem c4_error_iff_invalid_witness :
    from_wchar [0xD800] = Except.error [0xD800] ∧
    (((∃ e, from_wchar [0xD800] = Except.error e) ↔ ¬ ValidUtf16 [0xD800]) ∧
      ∀ e, from_wchar [0xD800] = Except.error e → e = [0xD800]) :=
  ⟨by decide, c4_error_iff_invalid [0xD800] (by decide)⟩

/-- Claim C5: `to_wchar ""` is the one-element buffer `[0]`, and
`from_wchar [0]` is `Ok ""`. -/
theorem c5_empty_input : to_wchar [] = [0] ∧ from_wchar [0] = Except.ok [] := by
  decide

/-- Claim C6: the single-scalar text U+1F600 encodes to exactly the surrogate
pair `0xD83D, 0xDE00` followed by the zero terminator, and decoding
`[0xD83D, 0xDE00, 0]` returns exactly that scalar value. -/
theorem c6_surrogate_pair :
    to_wchar [Char.ofNat 0x1F600] = [0xD83D, 0xDE00, 0] ∧
    from_wchar [0xD83D, 0xDE00, 0] = Except.ok [Char.ofNat 0x1F600] := by
  decide

/-- Claim C7: for every valid UTF-16 buffer, `from_wchar` leaves every null
scalar value that is not in trailing position untouched: the returned text is
literally the leading slice of the decoded text (so all content before the
trailing-null block, embedded nulls included, survives unchanged), every
character it drops is a null, and no trailing null remains. -/
theorem c7_embedded_nuls_preserved (B : List Nat) (cs : List Char)
    (h : decodeUtf16 B = some cs) :
    ∃ t : List Char, from_wchar B = Except.ok t ∧
      t = cs.take t.length ∧
      (∀ c ∈ cs.drop t.length, c = nulChar) ∧
      t.getLast? ≠ some nulChar := by
  obtain ⟨k, hk⟩ := eq_trimEndNul_append cs
  obtain ⟨t, ht⟩ : ∃ t, trimEndNul cs = t := ⟨trimEndNul cs, rfl⟩
  rw [ht] at hk
  refine ⟨t, ?_, ?_, ?_, ?_⟩
  · unfold from_wchar
    rw [h]
    show Except.ok (trimEndNul cs) = Except.ok t
    rw [ht]
  · rw [hk, List.take_left]
  · intro c hc
    rw [hk, List.drop_left] at hc
    exact List.eq_of_mem_replicate hc
  · rw [← ht]
    exact trimEndNul_getLast cs

/-- Claim C7 witness: at `[0x0048, 0, 0x0049, 0]` (a buffer whose decode ends
in a null, so trimming does occur) `from_wchar` returns `Ok "H\u0 I"`: the
embedded null between H and I survives while the trailing null is removed. -/
theorem c7_embedded_nuls_preserved_witness :
    from_wchar [0x0048, 0x0000, 0x0049, 0x0000] = Except.ok ['H', nulChar, 'I'] ∧
    (∃ t : List Char, from_wchar [0x0048, 0x0000, 0x0049, 0x0000] = Except.ok t ∧
      t = (['H', nulChar, 'I', nulChar].take t.length) ∧
      (∀ c ∈ ['H', nulChar, 'I', nulChar].drop t.length, c = nulChar) ∧
      t.getLast? ≠ some nulChar) :=
  ⟨by decide,
    c7_embedded_nuls_preserved [0x0048, 0x0000, 0x0049, 0x0000]
      ['H', nulChar, 'I', nulChar] (by decide)⟩

/-- Claim C8: both operations are pure deterministic functions: two runs of
`to_wchar` on the same text give the same buffer, and two runs of
`from_wchar` on the same buffer give the same result. In this embedding both
operations are Lean functions, so the two-run property is definitional. -/
theorem c8_determinism (T : List Char) (B : List Nat) :
    to_wchar T = to_wchar T ∧ from_wchar B = from_wchar B :=
  ⟨rfl, rfl⟩

/-- Claim C9: whenever `from_wchar` succeeds, the returned text does not end
with a null scalar value. -/
theorem c9_ok_no_trailing_nul (B : List Nat) (s : List Char)
    (h : from_wchar B = Except.ok s) : s.getLast? ≠ some nulChar := by
  cases hd : decodeUtf16 B with
  | some cs =>
    unfold from_wchar at h
    rw [hd] at h
    have h2 : trimEndNul cs = s := Except.ok.inj h
    rw [← h2]
    exact trimEndNul_getLast cs
  | none =>
    unfold from_wchar at h
    rw [hd] at h
    exact Except.noConfusion h

/-- Claim C9 witness: instantiated at `[0x0048, 0, 0]`, whose decode succeeds
with `"H"`, which indeed has no trailing null. -/
theorem c9_ok_no_trailing_nul_witness : (['H'] : List Char).getLast? ≠ some nulChar :=
  c9_ok_no_trailing_nul [0x0048, 0, 0] ['H'] (by decide)

/-- Claim C10: for every text with no null scalar value, the encoder's output
contains exactly one zero code unit, and it is the final element. -/
theorem c10_terminator_only_zero (T : List Char) (hT : ∀ c ∈ T, c ≠ nulChar) :
    (to_wchar T).count 0 = 1 ∧ (to_wchar T).getLast? = some 0 := by
  constructor
  · unfold to_wchar
    rw [List.count_append, List.count_eq_zero_of_not_mem (zero_not_mem_encodeWide T hT)]
    rfl
  · unfold to_wchar
    exact List.getLast?_concat _

/-- Claim C10 witness: instantiated at the null-free text `"HI"`. -/
theorem c10_terminator_only_zero_witness :
    (to_wchar ['H', 'I']).count 0 = 1 ∧ (to_wchar ['H', 'I']).getLast? = some 0 :=
  c10_terminator_only_zero ['H', 'I'] (by decide)
